import Mathlib

/-!
Verification development for the TransactAI hybrid transaction categorizer.

The repository ships the thin shells around the core engine (the Next.js
localStorage services, the Android notification listener, API documentation)
while the Python core (`core/preprocessor.py`, `core/rules.py`, `core/model.py`,
`api/main.py`) is described by the design document.  Components whose code is
present are translated directly; the missing core components are modelled from
the design document and marked as such in their doc comments.

Numeric confidences and probabilities are modelled as rationals (`ℚ`); text is
modelled as `String` / `List Char`.
-/

namespace TransactAI

/-! ## Character-level utilities for the Normalizer -/

/-- ASCII lower-casing of a single character: maps `A`–`Z` (code points 65–90)
to `a`–`z` by adding 32, leaves every other character unchanged. -/
def toLowerChar (c : Char) : Char :=
  if 65 ≤ c.toNat ∧ c.toNat ≤ 90 then Char.ofNat (c.toNat + 32) else c

/-- Whitespace test used for whitespace collapsing: space, tab, LF, VT, FF, CR. -/
def isWsChar (c : Char) : Bool :=
  decide (c.toNat = 32 ∨ c.toNat = 9 ∨ c.toNat = 10 ∨ c.toNat = 11 ∨
    c.toNat = 12 ∨ c.toNat = 13)

/-- Decimal digit test (`0`–`9`, code points 48–57). -/
def isDigitChar (c : Char) : Bool :=
  decide (48 ≤ c.toNat ∧ c.toNat ≤ 57)

theorem char_toNat_ofNat (n : Nat) (h : n.isValidChar) : (Char.ofNat n).toNat = n := by
  rw [Char.ofNat, dif_pos h]
  rfl

theorem toLowerChar_idem (c : Char) : toLowerChar (toLowerChar c) = toLowerChar c := by
  unfold toLowerChar
  by_cases h : 65 ≤ c.toNat ∧ c.toNat ≤ 90
  · have hv : (c.toNat + 32).isValidChar := Or.inl (by omega)
    rw [if_pos h, if_neg]
    rw [char_toNat_ofNat _ hv]
    omega
  · rw [if_neg h, if_neg h]

theorem isWsChar_toLowerChar (c : Char) : isWsChar (toLowerChar c) = isWsChar c := by
  unfold toLowerChar
  by_cases h : 65 ≤ c.toNat ∧ c.toNat ≤ 90
  · have hv : (c.toNat + 32).isValidChar := Or.inl (by omega)
    rw [if_pos h]
    unfold isWsChar
    rw [char_toNat_ofNat _ hv]
    have h1 : ¬ ((c.toNat + 32) = 32 ∨ (c.toNat + 32) = 9 ∨ (c.toNat + 32) = 10 ∨
        (c.toNat + 32) = 11 ∨ (c.toNat + 32) = 12 ∨ (c.toNat + 32) = 13) := by omega
    have h2 : ¬ (c.toNat = 32 ∨ c.toNat = 9 ∨ c.toNat = 10 ∨
        c.toNat = 11 ∨ c.toNat = 12 ∨ c.toNat = 13) := by omega
    simp [h1, h2]
    all_goals omega
  · rw [if_neg h]

/-- Lower-case a character list. -/
def lowerL (l : List Char) : List Char := l.map toLowerChar

/-- ASCII lower-casing of a string (the embedding of JavaScript's
`toLowerCase()` / Kotlin's `ignoreCase` comparisons on these inputs). -/
def lowerStr (s : String) : String := String.mk (s.data.map toLowerChar)

theorem lowerL_idem (l : List Char) : lowerL (lowerL l) = lowerL l := by
  unfold lowerL
  rw [List.map_map]
  exact List.map_congr_left fun c _ => toLowerChar_idem c

/-! ## Whitespace tokenization (collapse + split), used by the Normalizer -/

/-- Split a character list into maximal whitespace-free words, dropping all
whitespace (this is how the normalizer collapses whitespace). -/
def words : List Char → List (List Char)
  | [] => []
  | c :: cs =>
    if isWsChar c then words cs
    else
      match cs with
      | [] => [[c]]
      | c2 :: _ =>
        if isWsChar c2 then [c] :: words cs
        else
          match words cs with
          | [] => [[c]]
          | w :: ws => (c :: w) :: ws

/-- Join words with single spaces. -/
def unwords : List (List Char) → List Char
  | [] => []
  | [w] => w
  | w :: ws => w ++ ' ' :: unwords ws

theorem words_cons_ws (c : Char) (l : List Char) (h : isWsChar c = true) :
    words (c :: l) = words l := by
  rw [words.eq_def]
  simp [h]

theorem words_singleton (c : Char) (h : isWsChar c = false) :
    words [c] = [[c]] := by
  rw [words.eq_def]
  simp [h]

theorem words_cons_cons_ws (c c2 : Char) (cs : List Char)
    (hc : isWsChar c = false) (hc2 : isWsChar c2 = true) :
    words (c :: c2 :: cs) = [c] :: words (c2 :: cs) := by
  rw [words.eq_def]
  simp [hc, hc2]

theorem words_cons_cons_not_ws (c c2 : Char) (cs : List Char)
    (hc : isWsChar c = false) (hc2 : isWsChar c2 = false) :
    words (c :: c2 :: cs) =
      match words (c2 :: cs) with
      | [] => [[c]]
      | w :: ws => (c :: w) :: ws := by
  rw [words.eq_def]
  simp [hc, hc2]

theorem words_wf (l : List Char) :
    ∀ t ∈ words l, t ≠ [] ∧ ∀ c ∈ t, isWsChar c = false := by
  induction l with
  | nil => intro t ht; simp [words] at ht
  | cons c cs ih =>
    intro t ht
    by_cases hc : isWsChar c
    · rw [words_cons_ws c cs hc] at ht
      exact ih t ht
    · replace hc : isWsChar c = false := by simpa using hc
      match cs with
      | [] =>
        rw [words_singleton c hc] at ht
        simp at ht
        subst ht
        refine ⟨by simp, ?_⟩
        intro x hx
        simp at hx
        subst hx
        exact hc
      | c2 :: cs' =>
        by_cases hc2 : isWsChar c2
        · rw [words_cons_cons_ws c c2 cs' hc hc2] at ht
          rcases List.mem_cons.mp ht with h1 | h2
          · subst h1
            refine ⟨by simp, ?_⟩
            intro x hx
            simp at hx
            subst hx
            exact hc
          · exact ih t h2
        · replace hc2 : isWsChar c2 = false := by simpa using hc2
          rw [words_cons_cons_not_ws c c2 cs' hc hc2] at ht
          rcases hw : words (c2 :: cs') with _ | ⟨w, ws⟩
          · rw [hw] at ht
            simp at ht
            subst ht
            refine ⟨by simp, ?_⟩
            intro x hx
            simp at hx
            subst hx
            exact hc
          · rw [hw] at ht
            simp only [] at ht
            rcases List.mem_cons.mp ht with h1 | h2
            · subst h1
              have hww := ih w (by rw [hw]; exact List.mem_cons_self w ws)
              refine ⟨by simp, ?_⟩
              intro x hx
              rcases List.mem_cons.mp hx with h3 | h4
              · subst h3; exact hc
              · exact hww.2 x h4
            · exact ih t (by rw [hw]; exact List.mem_cons_of_mem w h2)

theorem words_append_word (w l : List Char) (hne : w ≠ [])
    (hw : ∀ c ∈ w, isWsChar c = false)
    (hl : l = [] ∨ ∃ c cs, l = c :: cs ∧ isWsChar c = true) :
    words (w ++ l) = w :: words l := by
  induction w with
  | nil => exact absurd rfl hne
  | cons c w' ih =>
    have hc : isWsChar c = false := hw c (List.mem_cons_self c w')
    match w' with
    | [] =>
      rcases hl with h | ⟨c2, cs, h, hc2⟩
      · subst h
        simp only [List.append_nil]
        rw [words_singleton c hc]
        rfl
      · subst h
        show words (c :: c2 :: cs) = [c] :: words (c2 :: cs)
        exact words_cons_cons_ws c c2 cs hc hc2
    | c2 :: w'' =>
      have hc2 : isWsChar c2 = false := hw c2 (by simp)
      have ihr : words ((c2 :: w'') ++ l) = (c2 :: w'') :: words l :=
        ih (by simp) (fun x hx => hw x (List.mem_cons_of_mem c hx))
      show words (c :: ((c2 :: w'') ++ l)) = (c :: c2 :: w'') :: words l
      rw [show (c2 :: w'') ++ l = c2 :: (w'' ++ l) from rfl] at ihr ⊢
      rw [words_cons_cons_not_ws c c2 (w'' ++ l) hc hc2, ihr]

theorem words_unwords (ts : List (List Char))
    (h : ∀ t ∈ ts, t ≠ [] ∧ ∀ c ∈ t, isWsChar c = false) :
    words (unwords ts) = ts := by
  induction ts with
  | nil => rfl
  | cons w ts' ih =>
    match ts' with
    | [] =>
      show words (unwords [w]) = [w]
      have hw := h w (List.mem_cons_self w [])
      unfold unwords
      have := words_append_word w [] hw.1 hw.2 (Or.inl rfl)
      simpa using this
    | w2 :: ts'' =>
      have hw := h w (List.mem_cons_self w _)
      show words (w ++ ' ' :: unwords (w2 :: ts'')) = w :: (w2 :: ts'')
      rw [words_append_word w (' ' :: unwords (w2 :: ts'')) hw.1 hw.2
        (Or.inr ⟨' ', unwords (w2 :: ts''), rfl, by decide⟩)]
      rw [words_cons_ws ' ' _ (by decide)]
      rw [ih (fun t ht => h t (List.mem_cons_of_mem w ht))]

/-! ## Normalizer token masking -/

/-- Placeholder token substituted for numeric amount-like tokens. -/
def amountToken : List Char := "amounttoken".data

/-- Placeholder token substituted for phone-number-shaped digit sequences. -/
def phoneToken : List Char := "phonetoken".data

/-- Strip a leading currency marker (`₹`, `rs.`, `rs`, `inr`) from a token,
returning the remainder, or `none` when no marker is present. -/
def stripCurrency (t : List Char) : Option (List Char) :=
  if "₹".data.isPrefixOf t then some (t.drop 1)
  else if "rs.".data.isPrefixOf t then some (t.drop 3)
  else if "rs".data.isPrefixOf t then some (t.drop 2)
  else if "inr".data.isPrefixOf t then some (t.drop 3)
  else none

/-- A numeric run: nonempty, made of digits with `,`/`.` separators, and
containing at least one digit. -/
def isNumericRun (r : List Char) : Bool :=
  !r.isEmpty && r.all (fun c => isDigitChar c || c == ',' || c == '.') &&
    r.any isDigitChar

/-- An amount-like token: a numeric run, optionally preceded by a currency
marker. -/
def isAmountLike (t : List Char) : Bool :=
  match stripCurrency t with
  | some r => isNumericRun r
  | none => isNumericRun t

/-- A phone-number-shaped token: a long (≥ 7) all-digit sequence. -/
def isPhoneLike (t : List Char) : Bool :=
  decide (7 ≤ t.length) && t.all isDigitChar

/-- Fixed substitution table canonicalizing informal spellings of domain
terms. -/
def substTable : List (List Char × List Char) :=
  [("recieved".data, "received".data),
   ("txn".data, "transaction".data),
   ("amt".data, "amount".data),
   ("acct".data, "account".data),
   ("debitted".data, "debited".data),
   ("a/c".data, "account".data)]

/-- Canonicalize a token through the substitution table (identity when the
token is not an informal variant). -/
def substCanon (t : List Char) : List Char :=
  (List.lookup t substTable).getD t

/-- Known notification boilerplate prefixes (app-name tags) stripped from the
front of a message. -/
def boilerTable : List (List Char) :=
  ["gpay:".data, "paytm:".data, "phonepe:".data, "sms:".data, "alert:".data]

def isBoilerplate (t : List Char) : Bool := boilerTable.contains t

/-- Per-token masking: phone-shaped digit runs become `phonetoken`, amount-like
tokens become `amounttoken`, informal spellings are canonicalized, anything
else passes through. -/
def maskToken (t : List Char) : List Char :=
  if isPhoneLike t then phoneToken
  else if isAmountLike t then amountToken
  else substCanon t

/-- Character-list core of the Normalizer: lowercase the tokens, collapse
whitespace, strip leading notification boilerplate, then mask each token. -/
def normalizeL (l : List Char) : List Char :=
  unwords ((((words l).map lowerL).dropWhile isBoilerplate).map maskToken)

/-- Modelled from the spec: the Normalizer (`core/preprocessor.py`, absent from
the sources) — `normalize(raw) -> CleanText`: lowercase, collapse whitespace,
strip leading notification boilerplate, mask amount-like and phone-shaped
tokens, canonicalize informal spellings via a fixed substitution table. -/
def normalize (s : String) : String :=
  String.mk (normalizeL s.data)

/-! ## Idempotence of the Normalizer -/

theorem lookup_mem_values {α β : Type} [BEq α] {l : List (α × β)} {a : α} {b : β}
    (h : List.lookup a l = some b) : b ∈ l.map Prod.snd := by
  induction l with
  | nil => simp [List.lookup] at h
  | cons p l ih =>
    match p with
    | (k, v) =>
      rw [List.lookup_cons] at h
      cases hk : a == k
      · rw [hk] at h
        have h2 : List.lookup a l = some b := h
        exact List.mem_cons_of_mem _ (ih h2)
      · rw [hk] at h
        have h2 : some v = some b := h
        injection h2 with h3
        subst h3
        simp

theorem phoneToken_facts :
    maskToken phoneToken = phoneToken ∧ phoneToken ≠ [] ∧
    (∀ c ∈ phoneToken, isWsChar c = false) ∧ lowerL phoneToken = phoneToken ∧
    isBoilerplate phoneToken = false := by decide

theorem amountToken_facts :
    maskToken amountToken = amountToken ∧ amountToken ≠ [] ∧
    (∀ c ∈ amountToken, isWsChar c = false) ∧ lowerL amountToken = amountToken ∧
    isBoilerplate amountToken = false := by decide

theorem substTable_facts : ∀ v ∈ substTable.map Prod.snd,
    maskToken v = v ∧ v ≠ [] ∧ (∀ c ∈ v, isWsChar c = false) ∧
    lowerL v = v ∧ isBoilerplate v = false := by decide

theorem maskToken_good (u : List Char) (hne : u ≠ [])
    (hws : ∀ c ∈ u, isWsChar c = false) (hlow : lowerL u = u) :
    maskToken u ≠ [] ∧ (∀ c ∈ maskToken u, isWsChar c = false) ∧
    lowerL (maskToken u) = maskToken u ∧ maskToken (maskToken u) = maskToken u := by
  by_cases hp : isPhoneLike u
  · have hm : maskToken u = phoneToken := by unfold maskToken; rw [if_pos hp]
    rw [hm]
    exact ⟨phoneToken_facts.2.1, phoneToken_facts.2.2.1, phoneToken_facts.2.2.2.1,
      phoneToken_facts.1⟩
  · by_cases ha : isAmountLike u
    · have hm : maskToken u = amountToken := by
        unfold maskToken; rw [if_neg hp, if_pos ha]
      rw [hm]
      exact ⟨amountToken_facts.2.1, amountToken_facts.2.2.1, amountToken_facts.2.2.2.1,
        amountToken_facts.1⟩
    · rcases hl : List.lookup u substTable with _ | v
      · have hm : maskToken u = u := by
          unfold maskToken; rw [if_neg hp, if_neg ha]
          unfold substCanon; rw [hl]; rfl
        rw [hm]
        exact ⟨hne, hws, hlow, hm⟩
      · have hm : maskToken u = v := by
          unfold maskToken; rw [if_neg hp, if_neg ha]
          unfold substCanon; rw [hl]; rfl
        have hv := substTable_facts v (lookup_mem_values hl)
        rw [hm]
        exact ⟨hv.2.1, hv.2.2.1, hv.2.2.2.1, hv.1⟩

theorem maskToken_not_boiler (u : List Char) (hboil : isBoilerplate u = false) :
    isBoilerplate (maskToken u) = false := by
  by_cases hp : isPhoneLike u
  · have hm : maskToken u = phoneToken := by unfold maskToken; rw [if_pos hp]
    rw [hm]; exact phoneToken_facts.2.2.2.2
  · by_cases ha : isAmountLike u
    · have hm : maskToken u = amountToken := by
        unfold maskToken; rw [if_neg hp, if_pos ha]
      rw [hm]; exact amountToken_facts.2.2.2.2
    · rcases hl : List.lookup u substTable with _ | v
      · have hm : maskToken u = u := by
          unfold maskToken; rw [if_neg hp, if_neg ha]
          unfold substCanon; rw [hl]; rfl
        rw [hm]; exact hboil
      · have hm : maskToken u = v := by
          unfold maskToken; rw [if_neg hp, if_neg ha]
          unfold substCanon; rw [hl]; rfl
        rw [hm]
        exact (substTable_facts v (lookup_mem_values hl)).2.2.2.2

theorem dropWhile_head_false {α : Type} (p : α → Bool) (l : List α) (a : α)
    (l' : List α) (h : l.dropWhile p = a :: l') : p a = false := by
  induction l with
  | nil => simp at h
  | cons x xs ih =>
    rw [List.dropWhile_cons] at h
    by_cases hx : p x
    · rw [if_pos hx] at h
      exact ih h
    · rw [if_neg hx] at h
      injection h with h1 _
      subst h1
      simpa using hx

theorem dropWhile_eq_self_of_head {α : Type} (p : α → Bool) (l : List α)
    (h : ∀ a l', l = a :: l' → p a = false) : l.dropWhile p = l := by
  cases l with
  | nil => rfl
  | cons a l' =>
    rw [List.dropWhile_cons, h a l' rfl]
    simp

theorem normalizeL_idem (l : List Char) : normalizeL (normalizeL l) = normalizeL l := by
  have hu : ∀ u ∈ ((words l).map lowerL).dropWhile isBoilerplate,
      u ≠ [] ∧ (∀ c ∈ u, isWsChar c = false) ∧ lowerL u = u := by
    intro u hmem
    have hu2 : u ∈ (words l).map lowerL :=
      (List.dropWhile_sublist isBoilerplate).mem hmem
    rcases List.mem_map.mp hu2 with ⟨w, hw, rfl⟩
    have hwf := words_wf l w hw
    refine ⟨?_, ?_, lowerL_idem w⟩
    · simpa [lowerL] using hwf.1
    · intro c hc
      rcases List.mem_map.mp hc with ⟨c', hc', rfl⟩
      rw [isWsChar_toLowerChar]
      exact hwf.2 c' hc'
  have htm : ∀ t ∈ (((words l).map lowerL).dropWhile isBoilerplate).map maskToken,
      t ≠ [] ∧ (∀ c ∈ t, isWsChar c = false) ∧ lowerL t = t ∧
      maskToken t = t := by
    intro t ht
    rcases List.mem_map.mp ht with ⟨u, hmem, rfl⟩
    have h3 := hu u hmem
    exact maskToken_good u h3.1 h3.2.1 h3.2.2
  unfold normalizeL
  rw [words_unwords _ (fun t ht => ⟨(htm t ht).1, (htm t ht).2.1⟩)]
  have hlowmap :
      ((((words l).map lowerL).dropWhile isBoilerplate).map maskToken).map lowerL =
        (((words l).map lowerL).dropWhile isBoilerplate).map maskToken := by
    have h1 := List.map_congr_left (fun t ht => (htm t ht).2.2.1)
    rw [h1, List.map_id']
  rw [hlowmap]
  have hdrop :
      ((((words l).map lowerL).dropWhile isBoilerplate).map maskToken).dropWhile
        isBoilerplate =
        (((words l).map lowerL).dropWhile isBoilerplate).map maskToken := by
    apply dropWhile_eq_self_of_head
    intro a ts' hts
    rcases hdc : ((words l).map lowerL).dropWhile isBoilerplate with _ | ⟨u, us'⟩
    · rw [hdc] at hts
      simp at hts
    · rw [hdc] at hts
      rw [List.map_cons] at hts
      injection hts with h1 _
      subst h1
      exact maskToken_not_boiler u (dropWhile_head_false _ _ u us' hdc)
  rw [hdrop]
  have hmaskmap :
      ((((words l).map lowerL).dropWhile isBoilerplate).map maskToken).map maskToken =
        (((words l).map lowerL).dropWhile isBoilerplate).map maskToken := by
    have h1 := List.map_congr_left (fun t ht => (htm t ht).2.2.2)
    rw [h1, List.map_id']
  rw [hmaskmap]

theorem normalize_idem (s : String) : normalize (normalize s) = normalize s := by
  unfold normalize
  rw [show (String.mk (normalizeL s.data)).data = normalizeL s.data from rfl]
  rw [normalizeL_idem]

theorem normalize_empty : normalize "" = "" := rfl

/-! ## Rule Engine (modelled from the spec, `core/rules.py` absent) -/

/-- Substring test on character lists. -/
def isSubstr : List Char → List Char → Bool
  | n, [] => n.isEmpty
  | n, c :: cs => n.isPrefixOf (c :: cs) || isSubstr n cs

/-- Modelled from the spec: a rule of the Rule Engine (`core/rules.py`, absent
from the sources) is a (predicate, target label, base confidence) tuple; the
predicate is a keyword-set substring test over raw and clean text. -/
structure Rule where
  keywords : List (List Char)
  label : String
  confidence : ℚ
deriving DecidableEq

/-- RuleVerdict: label, confidence in `[0,1]`, matched pattern index or none. -/
structure RuleVerdict where
  label : String
  confidence : ℚ
  matchedPattern : Option Nat
deriving DecidableEq

/-- The null verdict returned when no rule predicate is satisfied
(confidence 0, label undefined). -/
def nullVerdict : RuleVerdict := ⟨"", 0, none⟩

/-- Does rule `r` match (some keyword occurs in the raw or the clean text)? -/
def ruleMatches (r : Rule) (raw clean : List Char) : Bool :=
  r.keywords.any (fun k => isSubstr k raw || isSubstr k clean)

def ruleEvalAux : List Rule → List Char → List Char → Nat → RuleVerdict
  | [], _, _, _ => nullVerdict
  | r :: rs, raw, clean, i =>
    if ruleMatches r raw clean then ⟨r.label, r.confidence, some i⟩
    else ruleEvalAux rs raw clean (i + 1)

/-- Modelled from the spec: `evaluate(raw, clean) -> RuleVerdict` scans the
ordered rule list and returns the first match; when no predicate is satisfied
it returns the null verdict. -/
def ruleEval (rules : List Rule) (raw clean : List Char) : RuleVerdict :=
  ruleEvalAux rules raw clean 0

/-! ## Fusion Controller (modelled from the spec, `api/main.py` and
`core/model.py` absent) -/

/-- Decision provenance tag. -/
inductive Strategy
  | RULE
  | ML
  | HYBRID
  | FALLBACK
deriving DecidableEq

/-- One consulted verdict recorded in a Decision's trace. -/
inductive TraceEntry
  | rule (v : RuleVerdict)
  | ml (label : String) (prob : ℚ)
  | centroid (label : String) (score : ℚ)
deriving DecidableEq

/-- Decision: the sole output artifact of the core. -/
structure Decision where
  category : String
  confidence : ℚ
  strategy : Strategy
  trace : List TraceEntry
deriving DecidableEq

/-- The high-confidence rule pre-emption threshold (0.9). -/
def HIGH_RULE_THRESHOLD : ℚ := mkRat 9 10

/-- The classifier acceptance threshold (0.7), inclusive. -/
def ML_ACCEPT_THRESHOLD : ℚ := mkRat 7 10

/-- The reserved fallback label. -/
def othersLabel : String := "Others"

/-- The loaded, immutable inference state handed to the Fusion Controller:
rule table, registered label universe, classifier (label probabilities per
clean text), centroid store (`nearest_label` result per clean text, `none`
when no centroids exist), and the tunable thresholds. -/
structure FusionContext where
  rules : List Rule
  registered : List String
  classifier : String → List (String × ℚ)
  centroids : String → Option (String × ℚ)
  rescueThreshold : ℚ
  hybridMargin : ℚ

/-- Arg-max over the classifier's label probabilities (first wins on ties);
the fallback label with probability 0 when the distribution is empty. -/
def argmaxPair : List (String × ℚ) → String × ℚ
  | [] => (othersLabel, 0)
  | p :: ps => ps.foldl (fun best q => if best.2 < q.2 then q else best) p

/-- Modelled from the spec: the embedding-rescue stage of the Fusion
Controller — accept the centroid label as HYBRID when its cosine score clears
the rescue threshold and the label agrees with, or meaningfully exceeds, the
classifier's top label; otherwise fall back to `Others` with the classifier's
top probability. -/
def rescueStage (ctx : FusionContext) (clean : String) (mlLabel : String)
    (p : ℚ) (tr : List TraceEntry) : Decision :=
  match ctx.centroids clean with
  | none => ⟨othersLabel, p, Strategy.FALLBACK, tr⟩
  | some (cl, score) =>
    if ctx.rescueThreshold ≤ score ∧ (cl = mlLabel ∨ p + ctx.hybridMargin ≤ score) then
      ⟨cl, (p + score) / 2, Strategy.HYBRID, tr ++ [TraceEntry.centroid cl score]⟩
    else ⟨othersLabel, p, Strategy.FALLBACK, tr ++ [TraceEntry.centroid cl score]⟩

/-- Modelled from the spec: the Fusion Controller's decision state machine —
normalize once; rule check (terminal at confidence ≥ 0.9); short-circuit empty
clean text to `Others` with confidence 0 instead of invoking the classifier;
classifier check (terminal at probability ≥ 0.7); embedding rescue; fallback. -/
def classify (ctx : FusionContext) (raw : String) : Decision :=
  let clean := normalize raw
  let rv := ruleEval ctx.rules raw.data clean.data
  if HIGH_RULE_THRESHOLD ≤ rv.confidence then
    ⟨rv.label, rv.confidence, Strategy.RULE, [TraceEntry.rule rv]⟩
  else if clean = "" then
    ⟨othersLabel, 0, Strategy.FALLBACK, [TraceEntry.rule rv]⟩
  else
    let top := argmaxPair (ctx.classifier clean)
    let tr := [TraceEntry.rule rv, TraceEntry.ml top.1 top.2]
    if ML_ACCEPT_THRESHOLD ≤ top.2 then
      ⟨top.1, top.2, Strategy.ML, tr⟩
    else rescueStage ctx clean top.1 top.2 tr

/-! ## Server-level state (modelled from the spec, §4.6 and §6) -/

/-- Modelled from the spec: the process state seen by the external interface —
the loaded inference context plus the append-only feedback log of
(clean text, corrected label) pairs. -/
structure CoreState where
  ctx : FusionContext
  feedback : List (String × String)

/-- Modelled from the spec: `classify` as exposed at the boundary — a pure
function of its input and the currently loaded state; it does not mutate the
state. -/
def serverClassify (s : CoreState) (raw : String) : Decision × CoreState :=
  (classify s.ctx raw, s)

/-- Modelled from the spec: `record_feedback` appends a training example to the
correction log without mutating any live model state. -/
def submitCorrection (s : CoreState) (text label : String) : CoreState :=
  { s with feedback := s.feedback ++ [(normalize text, label)] }

/-- Modelled from the spec: `add_label` registers a new category name into the
label universe; it does not give the label a centroid or classifier weight. -/
def addLabel (s : CoreState) (name : String) : CoreState :=
  { s with ctx := { s.ctx with registered := s.ctx.registered ++ [name] } }

/-! ## Rule-engine and arg-max facts -/

theorem ruleEvalAux_cases (rules : List Rule) (raw clean : List Char) (i : Nat) :
    ruleEvalAux rules raw clean i = nullVerdict ∨
    ∃ r ∈ rules, (ruleEvalAux rules raw clean i).label = r.label ∧
      (ruleEvalAux rules raw clean i).confidence = r.confidence := by
  induction rules generalizing i with
  | nil => left; rfl
  | cons r rs ih =>
    by_cases hm : ruleMatches r raw clean
    · right
      exact ⟨r, List.mem_cons_self r rs, by simp [ruleEvalAux, hm],
        by simp [ruleEvalAux, hm]⟩
    · have hstep : ruleEvalAux (r :: rs) raw clean i = ruleEvalAux rs raw clean (i + 1) := by
        simp [ruleEvalAux, hm]
      rw [hstep]
      rcases ih (i + 1) with h | ⟨r', hr', h1, h2⟩
      · left; exact h
      · right; exact ⟨r', List.mem_cons_of_mem r hr', h1, h2⟩

theorem ruleEval_cases (rules : List Rule) (raw clean : List Char) :
    ruleEval rules raw clean = nullVerdict ∨
    ∃ r ∈ rules, (ruleEval rules raw clean).label = r.label ∧
      (ruleEval rules raw clean).confidence = r.confidence :=
  ruleEvalAux_cases rules raw clean 0

theorem ruleEvalAux_nomatch (rules : List Rule) (raw clean : List Char) (i : Nat)
    (h : ∀ r ∈ rules, ruleMatches r raw clean = false) :
    ruleEvalAux rules raw clean i = nullVerdict := by
  induction rules generalizing i with
  | nil => rfl
  | cons r rs ih =>
    have hm := h r (List.mem_cons_self r rs)
    have hstep : ruleEvalAux (r :: rs) raw clean i = ruleEvalAux rs raw clean (i + 1) := by
      simp [ruleEvalAux, hm]
    rw [hstep]
    exact ih (i + 1) (fun r' hr' => h r' (List.mem_cons_of_mem r hr'))

theorem rescueStage_none (ctx : FusionContext) (clean mlLabel : String) (p : ℚ)
    (tr : List TraceEntry) (h : ctx.centroids clean = none) :
    rescueStage ctx clean mlLabel p tr = ⟨othersLabel, p, Strategy.FALLBACK, tr⟩ := by
  unfold rescueStage
  rw [h]

theorem rescueStage_some (ctx : FusionContext) (clean mlLabel : String) (p : ℚ)
    (tr : List TraceEntry) (cl : String) (score : ℚ)
    (h : ctx.centroids clean = some (cl, score)) :
    rescueStage ctx clean mlLabel p tr =
      if ctx.rescueThreshold ≤ score ∧ (cl = mlLabel ∨ p + ctx.hybridMargin ≤ score) then
        ⟨cl, (p + score) / 2, Strategy.HYBRID, tr ++ [TraceEntry.centroid cl score]⟩
      else ⟨othersLabel, p, Strategy.FALLBACK, tr ++ [TraceEntry.centroid cl score]⟩ := by
  unfold rescueStage
  rw [h]

theorem argmax_foldl_mem (ps : List (String × ℚ)) (p : String × ℚ) :
    ps.foldl (fun best q => if best.2 < q.2 then q else best) p = p ∨
    ps.foldl (fun best q => if best.2 < q.2 then q else best) p ∈ ps := by
  induction ps generalizing p with
  | nil => left; rfl
  | cons q ps ih =>
    rw [List.foldl_cons]
    rcases ih (if p.2 < q.2 then q else p) with h | h
    · rw [h]
      by_cases hlt : p.2 < q.2
      · right; rw [if_pos hlt]; exact List.mem_cons_self q ps
      · left; rw [if_neg hlt]
    · right; exact List.mem_cons_of_mem q h

theorem argmaxPair_mem (l : List (String × ℚ)) :
    argmaxPair l = (othersLabel, 0) ∨ argmaxPair l ∈ l := by
  cases l with
  | nil => left; rfl
  | cons p ps =>
    rcases argmax_foldl_mem ps p with h | h
    · right
      show ps.foldl (fun best q => if best.2 < q.2 then q else best) p ∈ p :: ps
      rw [h]
      exact List.mem_cons_self p ps
    · right
      exact List.mem_cons_of_mem p h

/-! ## Claim C1: absolute rule pre-emption -/

/-- C1: whenever the Rule Engine's verdict has confidence at least
`HIGH_RULE_THRESHOLD` (0.9), the Fusion Controller's Decision has strategy
RULE and carries that verdict's label, and the Decision does not depend on
the classifier or the centroid store. -/
theorem rule_preemption (ctx : FusionContext) (raw : String)
    (h : HIGH_RULE_THRESHOLD ≤
      (ruleEval ctx.rules raw.data (normalize raw).data).confidence) :
    (classify ctx raw).strategy = Strategy.RULE ∧
    (classify ctx raw).category =
      (ruleEval ctx.rules raw.data (normalize raw).data).label ∧
    ∀ f g, classify { ctx with classifier := f, centroids := g } raw =
      classify ctx raw := by
  refine ⟨?_, ?_, ?_⟩
  · simp only [classify]
    rw [if_pos h]
  · simp only [classify]
    rw [if_pos h]
  · intro f g
    simp only [classify]
    rw [if_pos h, if_pos h]

/-! ## Claim C2: the Normalizer is total and idempotent -/

/-- C2: `normalize` is a total function on strings (it is defined for every
`String`, so no failure path exists), the empty string normalizes to the empty
clean text, and `normalize` is idempotent. -/
theorem normalize_total_idem :
    normalize "" = "" ∧ ∀ s : String, normalize (normalize s) = normalize s :=
  ⟨normalize_empty, normalize_idem⟩

/-! ## Claim C3: inclusive classifier acceptance threshold -/

/-- C3: when no rule fires (rule confidence below 0.9) and the clean text is
nonempty, the Fusion Controller accepts the classifier's arg-max label exactly
when its probability is ≥ `ML_ACCEPT_THRESHOLD` (0.7, inclusive), emitting
`Decision{label, confidence = probability, strategy = ML}`; for probability
strictly below 0.7 it hands over to the embedding rescue stage. -/
theorem ml_threshold_boundary (ctx : FusionContext) (raw : String)
    (hr : (ruleEval ctx.rules raw.data (normalize raw).data).confidence <
      HIGH_RULE_THRESHOLD)
    (hne : normalize raw ≠ "") :
    (ML_ACCEPT_THRESHOLD ≤ (argmaxPair (ctx.classifier (normalize raw))).2 →
      classify ctx raw =
        ⟨(argmaxPair (ctx.classifier (normalize raw))).1,
         (argmaxPair (ctx.classifier (normalize raw))).2, Strategy.ML,
         [TraceEntry.rule (ruleEval ctx.rules raw.data (normalize raw).data),
          TraceEntry.ml (argmaxPair (ctx.classifier (normalize raw))).1
            (argmaxPair (ctx.classifier (normalize raw))).2]⟩) ∧
    ((argmaxPair (ctx.classifier (normalize raw))).2 < ML_ACCEPT_THRESHOLD →
      classify ctx raw = rescueStage ctx (normalize raw)
        (argmaxPair (ctx.classifier (normalize raw))).1
        (argmaxPair (ctx.classifier (normalize raw))).2
        [TraceEntry.rule (ruleEval ctx.rules raw.data (normalize raw).data),
         TraceEntry.ml (argmaxPair (ctx.classifier (normalize raw))).1
           (argmaxPair (ctx.classifier (normalize raw))).2]) := by
  constructor
  · intro hp
    simp only [classify]
    rw [if_neg (not_le.mpr hr), if_neg hne, if_pos hp]
  · intro hp
    simp only [classify]
    rw [if_neg (not_le.mpr hr), if_neg hne, if_neg (not_le.mpr hp)]

/-! ## Claim C4: classify is deterministic and read-only -/

/-- C4: `classify` is a pure function of its input and the loaded state: it
does not mutate the state, and calling it twice in a row on identical input
yields the identical Decision. -/
theorem classify_deterministic (s : CoreState) (raw : String) :
    (serverClassify s raw).1 = (serverClassify (serverClassify s raw).2 raw).1 ∧
    (serverClassify s raw).2 = s :=
  ⟨rfl, rfl⟩

/-! ## Claim C7: empty input short-circuits to Others with confidence 0 -/

/-- C7: on empty input the normalizer returns the empty clean text and the
Fusion Controller short-circuits to a Decision labelled `Others` with
confidence 0 without invoking the classifier or centroid store (its result is
independent of both); no failure path exists. Requires the rule keywords to be
nonempty patterns (an empty keyword would vacuously match empty text). -/
theorem empty_input_shortcircuit (ctx : FusionContext)
    (hk : ∀ r ∈ ctx.rules, ∀ k ∈ r.keywords, k ≠ []) :
    (classify ctx "").category = othersLabel ∧
    (classify ctx "").confidence = 0 ∧
    normalize "" = "" ∧
    (∀ f g, classify { ctx with classifier := f, centroids := g } "" =
      classify ctx "") := by
  have hrv : ruleEval ctx.rules ("" : String).data (normalize "").data = nullVerdict := by
    apply ruleEvalAux_nomatch
    intro r hr
    unfold ruleMatches
    rw [List.any_eq_false]
    intro k hkk
    have hkne := hk r hr k hkk
    have hsub : isSubstr k ("" : String).data = false := by
      show k.isEmpty = false
      simpa using hkne
    have hsub2 : isSubstr k (normalize "").data = false := by
      show k.isEmpty = false
      simpa using hkne
    simp [hsub, hsub2]
  have hhigh : ¬ HIGH_RULE_THRESHOLD ≤ nullVerdict.confidence := by decide
  refine ⟨?_, ?_, normalize_empty, ?_⟩
  · simp only [classify]
    rw [hrv, if_neg hhigh, if_pos normalize_empty]
  · simp only [classify]
    rw [hrv, if_neg hhigh, if_pos normalize_empty]
  · intro f g
    simp only [classify]
    rw [hrv, if_neg hhigh, if_pos normalize_empty, if_neg hhigh, if_pos normalize_empty]

/-! ## Claim C5: every Decision is well-formed -/

/-- Well-formedness of the loaded inference state: rule confidences lie in
`[0,1]` and rule labels are registered; classifier probabilities lie in `[0,1]`
over registered labels; centroid scores are at most 1 over registered labels;
the rescue threshold is nonnegative. -/
def WFContext (ctx : FusionContext) : Prop :=
  (∀ r ∈ ctx.rules, 0 ≤ r.confidence ∧ r.confidence ≤ 1 ∧ r.label ∈ ctx.registered) ∧
  (∀ clean l q, (l, q) ∈ ctx.classifier clean → 0 ≤ q ∧ q ≤ 1 ∧ l ∈ ctx.registered) ∧
  (∀ clean l q, ctx.centroids clean = some (l, q) → q ≤ 1 ∧ l ∈ ctx.registered) ∧
  0 ≤ ctx.rescueThreshold

/-- C5: over a well-formed loaded state, every Decision produced by `classify`
has confidence in `[0,1]`, a strategy among the four defined values, and a
category drawn from the registered label set or the reserved `Others`. -/
theorem decision_wellformed (ctx : FusionContext) (raw : String) (h : WFContext ctx) :
    (0 ≤ (classify ctx raw).confidence ∧ (classify ctx raw).confidence ≤ 1) ∧
    ((classify ctx raw).strategy = Strategy.RULE ∨
      (classify ctx raw).strategy = Strategy.ML ∨
      (classify ctx raw).strategy = Strategy.HYBRID ∨
      (classify ctx raw).strategy = Strategy.FALLBACK) ∧
    ((classify ctx raw).category ∈ ctx.registered ∨
      (classify ctx raw).category = othersLabel) := by
  have hstrat : ∀ st : Strategy, st = Strategy.RULE ∨ st = Strategy.ML ∨
      st = Strategy.HYBRID ∨ st = Strategy.FALLBACK := by
    intro st
    cases st
    · exact Or.inl rfl
    · exact Or.inr (Or.inl rfl)
    · exact Or.inr (Or.inr (Or.inl rfl))
    · exact Or.inr (Or.inr (Or.inr rfl))
  have htop : 0 ≤ (argmaxPair (ctx.classifier (normalize raw))).2 ∧
      (argmaxPair (ctx.classifier (normalize raw))).2 ≤ 1 ∧
      ((argmaxPair (ctx.classifier (normalize raw))).1 ∈ ctx.registered ∨
        (argmaxPair (ctx.classifier (normalize raw))).1 = othersLabel) := by
    rcases argmaxPair_mem (ctx.classifier (normalize raw)) with he | hm
    · rw [he]
      exact ⟨le_refl 0, by norm_num, Or.inr rfl⟩
    · have := h.2.1 (normalize raw) (argmaxPair (ctx.classifier (normalize raw))).1
        (argmaxPair (ctx.classifier (normalize raw))).2 (by simpa using hm)
      exact ⟨this.1, this.2.1, Or.inl this.2.2⟩
  simp only [classify]
  by_cases h1 : HIGH_RULE_THRESHOLD ≤
      (ruleEval ctx.rules raw.data (normalize raw).data).confidence
  · rw [if_pos h1]
    rcases ruleEval_cases ctx.rules raw.data (normalize raw).data with hnull | ⟨r, hr, hlab, hconf⟩
    · rw [hnull] at h1
      exact absurd h1 (by decide)
    · have hrb := h.1 r hr
      refine ⟨⟨?_, ?_⟩, hstrat _, ?_⟩
      · show 0 ≤ (ruleEval ctx.rules raw.data (normalize raw).data).confidence
        rw [hconf]; exact hrb.1
      · show (ruleEval ctx.rules raw.data (normalize raw).data).confidence ≤ 1
        rw [hconf]; exact hrb.2.1
      · left
        show (ruleEval ctx.rules raw.data (normalize raw).data).label ∈ ctx.registered
        rw [hlab]; exact hrb.2.2
  · rw [if_neg h1]
    by_cases h2 : normalize raw = ""
    · rw [if_pos h2]
      exact ⟨⟨le_refl 0, by norm_num⟩, hstrat _, Or.inr rfl⟩
    · rw [if_neg h2]
      by_cases h3 : ML_ACCEPT_THRESHOLD ≤ (argmaxPair (ctx.classifier (normalize raw))).2
      · rw [if_pos h3]
        exact ⟨⟨htop.1, htop.2.1⟩, hstrat _, htop.2.2⟩
      · rw [if_neg h3]
        rcases hc : ctx.centroids (normalize raw) with _ | ⟨cl, score⟩
        · rw [rescueStage_none _ _ _ _ _ hc]
          exact ⟨⟨htop.1, htop.2.1⟩, hstrat _, Or.inr rfl⟩
        · rw [rescueStage_some _ _ _ _ _ _ _ hc]
          have hcb := h.2.2.1 (normalize raw) cl score hc
          by_cases h4 : ctx.rescueThreshold ≤ score ∧
              (cl = (argmaxPair (ctx.classifier (normalize raw))).1 ∨
                (argmaxPair (ctx.classifier (normalize raw))).2 + ctx.hybridMargin ≤ score)
          · rw [if_pos h4]
            have hs0 : 0 ≤ score := le_trans h.2.2.2 h4.1
            refine ⟨⟨?_, ?_⟩, hstrat _, Or.inl hcb.2⟩
            · have := htop.1
              show 0 ≤ ((argmaxPair (ctx.classifier (normalize raw))).2 + score) / 2
              linarith
            · have := htop.2.1
              show ((argmaxPair (ctx.classifier (normalize raw))).2 + score) / 2 ≤ 1
              linarith [hcb.1]
          · rw [if_neg h4]
            exact ⟨⟨htop.1, htop.2.1⟩, hstrat _, Or.inr rfl⟩

/-! ## Witness states for the fusion-controller claims -/

/-- Concrete context for the C1 witness: a Swiggy rule at confidence 0.95 with
a disagreeing classifier and centroid store. -/
def w1Ctx : FusionContext :=
  { rules := [⟨["swiggy".data], "Food", mkRat 95 100⟩],
    registered := ["Food", "Bills"],
    classifier := fun _ => [("Bills", mkRat 99 100)],
    centroids := fun _ => some ("Bills", 1),
    rescueThreshold := mkRat 1 2,
    hybridMargin := mkRat 1 10 }

/-- Witness for C1: on `"Rs. 1,250 debited via UPI to SWIGGY"` the Swiggy rule
fires at confidence 0.95 ≥ 0.9 and the Decision is RULE with the rule's
label. -/
theorem rule_preemption_witness :
    (HIGH_RULE_THRESHOLD ≤
      (ruleEval w1Ctx.rules ("Rs. 1,250 debited via UPI to SWIGGY" : String).data
        (normalize "Rs. 1,250 debited via UPI to SWIGGY").data).confidence) ∧
    (classify w1Ctx "Rs. 1,250 debited via UPI to SWIGGY").strategy = Strategy.RULE ∧
    (classify w1Ctx "Rs. 1,250 debited via UPI to SWIGGY").category =
      (ruleEval w1Ctx.rules ("Rs. 1,250 debited via UPI to SWIGGY" : String).data
        (normalize "Rs. 1,250 debited via UPI to SWIGGY").data).label :=
  ⟨by decide,
   (rule_preemption w1Ctx "Rs. 1,250 debited via UPI to SWIGGY" (by decide)).1,
   (rule_preemption w1Ctx "Rs. 1,250 debited via UPI to SWIGGY" (by decide)).2.1⟩

/-- Concrete context for the C3 witness: no rules, classifier probability
exactly at the 0.7 boundary. -/
def w3Ctx : FusionContext :=
  { rules := [],
    registered := ["Food"],
    classifier := fun _ => [("Food", mkRat 7 10)],
    centroids := fun _ => none,
    rescueThreshold := mkRat 1 2,
    hybridMargin := mkRat 1 10 }

/-- Witness for C3: with top probability exactly 0.7 the boundary is accepted
as an ML decision. -/
theorem ml_threshold_boundary_witness :
    ((ruleEval w3Ctx.rules ("lunch at cafe" : String).data
        (normalize "lunch at cafe").data).confidence < HIGH_RULE_THRESHOLD) ∧
    normalize "lunch at cafe" ≠ "" ∧
    (ML_ACCEPT_THRESHOLD ≤ (argmaxPair (w3Ctx.classifier (normalize "lunch at cafe"))).2) ∧
    classify w3Ctx "lunch at cafe" =
      ⟨(argmaxPair (w3Ctx.classifier (normalize "lunch at cafe"))).1,
       (argmaxPair (w3Ctx.classifier (normalize "lunch at cafe"))).2, Strategy.ML,
       [TraceEntry.rule (ruleEval w3Ctx.rules ("lunch at cafe" : String).data
          (normalize "lunch at cafe").data),
        TraceEntry.ml (argmaxPair (w3Ctx.classifier (normalize "lunch at cafe"))).1
          (argmaxPair (w3Ctx.classifier (normalize "lunch at cafe"))).2]⟩ :=
  ⟨by decide, by decide, by decide,
   (ml_threshold_boundary w3Ctx "lunch at cafe" (by decide) (by decide)).1 (by decide)⟩

/-- Concrete context for the C5 witness. -/
def w5Ctx : FusionContext :=
  { rules := [⟨["salary".data], "Income", mkRat 1 1⟩],
    registered := ["Income", "Food"],
    classifier := fun _ => [("Food", mkRat 3 5)],
    centroids := fun _ => some ("Food", mkRat 4 5),
    rescueThreshold := mkRat 1 2,
    hybridMargin := mkRat 1 10 }

theorem w5Ctx_wf : WFContext w5Ctx := by
  refine ⟨?_, ?_, ?_, by decide⟩
  · intro r hr
    have hr2 : r = ⟨["salary".data], "Income", mkRat 1 1⟩ := by
      simpa [w5Ctx] using hr
    subst hr2
    exact ⟨by decide, by decide, by simp [w5Ctx]⟩
  · intro clean l q hmem
    have h2 : l = "Food" ∧ q = mkRat 3 5 := by
      simpa [w5Ctx, Prod.ext_iff] using hmem
    obtain ⟨rfl, rfl⟩ := h2
    exact ⟨by decide, by decide, by simp [w5Ctx]⟩
  · intro clean l q heq
    have h2 : l = "Food" ∧ q = mkRat 4 5 := by
      have := heq
      simp [w5Ctx] at this
      exact ⟨this.1.symm, this.2.symm⟩
    obtain ⟨rfl, rfl⟩ := h2
    exact ⟨by decide, by simp [w5Ctx]⟩

/-- Witness for C5: a well-formed concrete state on a concrete input. -/
theorem decision_wellformed_witness :
    WFContext w5Ctx ∧
    (0 ≤ (classify w5Ctx "dinner payment").confidence ∧
      (classify w5Ctx "dinner payment").confidence ≤ 1) ∧
    ((classify w5Ctx "dinner payment").category ∈ w5Ctx.registered ∨
      (classify w5Ctx "dinner payment").category = othersLabel) :=
  ⟨w5Ctx_wf, (decision_wellformed w5Ctx "dinner payment" w5Ctx_wf).1,
   (decision_wellformed w5Ctx "dinner payment" w5Ctx_wf).2.2⟩

/-- Concrete context for the C7 witness: one rule with a nonempty keyword. -/
def w7Ctx : FusionContext :=
  { rules := [⟨["salary".data], "Income", mkRat 95 100⟩],
    registered := ["Income"],
    classifier := fun _ => [("Income", mkRat 9 10)],
    centroids := fun _ => none,
    rescueThreshold := mkRat 1 2,
    hybridMargin := mkRat 1 10 }

/-- Witness for C7: on the empty string the concrete state yields `Others`
with confidence 0. -/
theorem empty_input_shortcircuit_witness :
    (∀ r ∈ w7Ctx.rules, ∀ k ∈ r.keywords, k ≠ []) ∧
    (classify w7Ctx "").category = othersLabel ∧
    (classify w7Ctx "").confidence = 0 :=
  ⟨by decide, (empty_input_shortcircuit w7Ctx (by decide)).1,
   (empty_input_shortcircuit w7Ctx (by decide)).2.1⟩

/-! ## localStorage services (translated from
`frontend/.../lib/localStorageService.ts`, `src/unnamed/part_007`) -/

/-- A stored category (`Category` interface). -/
structure Category where
  name : String
  createdAt : String
deriving DecidableEq

/-- `categoryService.add`: append a category unless one with the same
lower-cased name is already stored (`new Date().toISOString()` is passed in as
`now`). -/
def categoryAdd (cats : List Category) (categoryName now : String) : List Category :=
  if (cats.find? (fun c => lowerStr c.name == lowerStr categoryName)).isSome then cats
  else cats ++ [⟨categoryName, now⟩]

/-- `categoryService.remove`: keep every category whose name differs (exact,
case-sensitive `!==`) from the given name. -/
def categoryRemove (cats : List Category) (categoryName : String) : List Category :=
  cats.filter (fun c => c.name != categoryName)

/-- `categoryService.getNames`. -/
def categoryGetNames (cats : List Category) : List String :=
  cats.map (fun c => c.name)

/-- The stored list has pairwise case-insensitively distinct names. -/
def ciDistinct (cats : List Category) : Prop :=
  cats.Pairwise (fun a b => lowerStr a.name ≠ lowerStr b.name)

/-! ## Claim C6: add registers a new label without touching model state -/

/-- C6: for a stored category list holding no category whose name equals the
new name case-insensitively, `categoryService.add` makes the new name appear in
the stored names; and the spec-level `add_label` leaves the centroid store and
classifier untouched while registering the name. -/
theorem addLabel_registers (cats : List Category) (name now : String)
    (h : ∀ c ∈ cats, lowerStr c.name ≠ lowerStr name) :
    name ∈ categoryGetNames (categoryAdd cats name now) ∧
    ∀ s : CoreState, (addLabel s name).ctx.centroids = s.ctx.centroids ∧
      (addLabel s name).ctx.classifier = s.ctx.classifier ∧
      name ∈ (addLabel s name).ctx.registered := by
  constructor
  · have hfind : cats.find? (fun c => lowerStr c.name == lowerStr name) = none := by
      rw [List.find?_eq_none]
      intro c hc
      simpa using h c hc
    unfold categoryAdd
    rw [hfind]
    simp [categoryGetNames]
  · intro s
    exact ⟨rfl, rfl, by simp [addLabel]⟩

/-- Witness for C6: adding `"Pet Care"` to a store holding `Food` and `Bills`
makes it appear among the stored names. -/
theorem addLabel_registers_witness :
    (∀ c ∈ [Category.mk "Food" "t0", Category.mk "Bills" "t1"],
      lowerStr c.name ≠ lowerStr "Pet Care") ∧
    "Pet Care" ∈ categoryGetNames
      (categoryAdd [Category.mk "Food" "t0", Category.mk "Bills" "t1"] "Pet Care" "t2") :=
  ⟨by decide,
   (addLabel_registers [Category.mk "Food" "t0", Category.mk "Bills" "t1"]
     "Pet Care" "t2" (by decide)).1⟩

/-! ## Claim C8: the stored category list stays case-insensitively
duplicate-free -/

/-- C8: `categoryService.add` with a case-insensitively present name leaves the
store unchanged; with a fresh name it appends exactly one entry;
`categoryService.remove` only deletes entries; and both preserve pairwise
case-insensitive distinctness of the stored names. -/
theorem category_ci_invariant (cats : List Category) (name now : String) :
    ((∃ c ∈ cats, lowerStr c.name = lowerStr name) → categoryAdd cats name now = cats) ∧
    ((∀ c ∈ cats, lowerStr c.name ≠ lowerStr name) →
      categoryAdd cats name now = cats ++ [⟨name, now⟩]) ∧
    (categoryRemove cats name).Sublist cats ∧
    (ciDistinct cats →
      ciDistinct (categoryAdd cats name now) ∧ ciDistinct (categoryRemove cats name)) := by
  refine ⟨?_, ?_, List.filter_sublist cats, ?_⟩
  · intro ⟨c, hc, hceq⟩
    have hfind : (cats.find? (fun c => lowerStr c.name == lowerStr name)).isSome := by
      rw [List.find?_isSome]
      exact ⟨c, hc, by simpa using hceq⟩
    unfold categoryAdd
    rw [if_pos hfind]
  · intro h
    have hfind : cats.find? (fun c => lowerStr c.name == lowerStr name) = none := by
      rw [List.find?_eq_none]
      intro c hc
      simpa using h c hc
    unfold categoryAdd
    rw [hfind]
    simp
  · intro hd
    constructor
    · by_cases hex : ∃ c ∈ cats, lowerStr c.name = lowerStr name
      · have hfind : (cats.find? (fun c => lowerStr c.name == lowerStr name)).isSome := by
          rw [List.find?_isSome]
          obtain ⟨c, hc, hceq⟩ := hex
          exact ⟨c, hc, by simpa using hceq⟩
        unfold categoryAdd
        rw [if_pos hfind]
        exact hd
      · push_neg at hex
        have hfind : cats.find? (fun c => lowerStr c.name == lowerStr name) = none := by
          rw [List.find?_eq_none]
          intro c hc
          simpa using hex c hc
        unfold categoryAdd
        rw [hfind]
        simp only [Option.isSome_none, Bool.false_eq_true, if_false]
        unfold ciDistinct at hd ⊢
        rw [List.pairwise_append]
        refine ⟨hd, by simp [List.Pairwise], ?_⟩
        intro a ha b hb
        simp at hb
        subst hb
        exact hex a ha
    · exact List.Pairwise.sublist (List.filter_sublist cats) hd

/-- Witness for C8: a concrete fresh add appends one entry and preserves
case-insensitive distinctness. -/
theorem category_ci_invariant_witness :
    (∀ c ∈ [Category.mk "Food" "t0", Category.mk "bills" "t1"],
      lowerStr c.name ≠ lowerStr "Travel") ∧
    categoryAdd [Category.mk "Food" "t0", Category.mk "bills" "t1"] "Travel" "t2" =
      [Category.mk "Food" "t0", Category.mk "bills" "t1"] ++ [Category.mk "Travel" "t2"] ∧
    ciDistinct [Category.mk "Food" "t0", Category.mk "bills" "t1"] ∧
    ciDistinct (categoryAdd [Category.mk "Food" "t0", Category.mk "bills" "t1"] "Travel" "t2") :=
  ⟨by decide,
   (category_ci_invariant [Category.mk "Food" "t0", Category.mk "bills" "t1"]
     "Travel" "t2").2.1 (by decide),
   by unfold ciDistinct; decide,
   ((category_ci_invariant [Category.mk "Food" "t0", Category.mk "bills" "t1"]
     "Travel" "t2").2.2.2 (by unfold ciDistinct; decide)).1⟩

/-! ## Claim C9: transactionService.update is a frame-respecting point
update -/

/-- `'debit' | 'credit'`. -/
inductive TxKind
  | debit
  | credit
deriving DecidableEq

/-- A stored transaction (`Transaction` interface); `type` is the
`'debit' | 'credit'` field. -/
structure Transaction where
  id : String
  description : String
  amount : ℚ
  category : String
  date : String
  recipient : Option String
  type : Option TxKind
deriving DecidableEq

/-- `Partial<Transaction>`: each field is present (`some`) or absent
(`none`). -/
structure TransactionUpdate where
  id : Option String
  description : Option String
  amount : Option ℚ
  category : Option String
  date : Option String
  recipient : Option (Option String)
  type : Option (Option TxKind)
deriving DecidableEq

/-- The spread merge `{ ...t, ...updates }`: fields present in the update
override those of the transaction. -/
def mergeTx (t : Transaction) (u : TransactionUpdate) : Transaction :=
  { id := u.id.getD t.id,
    description := u.description.getD t.description,
    amount := u.amount.getD t.amount,
    category := u.category.getD t.category,
    date := u.date.getD t.date,
    recipient := u.recipient.getD t.recipient,
    type := u.type.getD t.type }

/-- `transactionService.update`: find the index of the first transaction with
the given id (`findIndex`); when found (`index !== -1`), replace that entry by
its spread merge with the update; otherwise the store is left untouched. -/
def txUpdate (txs : List Transaction) (i : String) (u : TransactionUpdate) :
    List Transaction :=
  if h : txs.findIdx (fun t => t.id == i) < txs.length then
    txs.set (txs.findIdx (fun t => t.id == i))
      (mergeTx (txs.get ⟨txs.findIdx (fun t => t.id == i), h⟩) u)
  else txs

theorem txUpdate_append (pre : List Transaction) (t : Transaction)
    (post : List Transaction) (i : String) (u : TransactionUpdate)
    (hpre : ∀ t2 ∈ pre, t2.id ≠ i) (hti : t.id = i) :
    txUpdate (pre ++ t :: post) i u = pre ++ mergeTx t u :: post := by
  induction pre with
  | nil =>
    simp only [List.nil_append]
    have hk : (t :: post).findIdx (fun x => x.id == i) = 0 := by
      simp [List.findIdx_cons, hti]
    unfold txUpdate
    rw [hk]
    rw [dif_pos (by simp)]
    simp
  | cons a pre' ih =>
    have ha : (a.id == i) = false := by
      simpa using hpre a (List.mem_cons_self a pre')
    have ihr := ih (fun t2 ht2 => hpre t2 (List.mem_cons_of_mem a ht2))
    have hk : ((a :: (pre' ++ t :: post)).findIdx (fun x => x.id == i)) =
        ((pre' ++ t :: post).findIdx (fun x => x.id == i)) + 1 := by
      simp [List.findIdx_cons, ha]
    have hlt : (pre' ++ t :: post).findIdx (fun x => x.id == i) <
        (pre' ++ t :: post).length := by
      apply List.findIdx_lt_length_of_exists
      exact ⟨t, by simp, by simp [hti]⟩
    show txUpdate (a :: (pre' ++ t :: post)) i u = a :: (pre' ++ mergeTx t u :: post)
    unfold txUpdate
    rw [hk]
    rw [dif_pos (by simpa using Nat.succ_lt_succ hlt)]
    unfold txUpdate at ihr
    rw [dif_pos hlt] at ihr
    simp only [List.set_cons_succ, List.get_cons_succ]
    rw [ihr]

/-- C9: `transactionService.update` leaves the store completely unchanged when
no stored transaction carries the id, and otherwise replaces exactly the first
transaction with that id by its field-wise merge with the update, keeping every
other transaction and the list order intact. -/
theorem txUpdate_frame (txs : List Transaction) (i : String) (u : TransactionUpdate) :
    ((∀ t ∈ txs, t.id ≠ i) → txUpdate txs i u = txs) ∧
    (∀ pre t post, txs = pre ++ t :: post → (∀ t2 ∈ pre, t2.id ≠ i) → t.id = i →
      txUpdate txs i u = pre ++ mergeTx t u :: post) := by
  constructor
  · intro h
    have hfi : txs.findIdx (fun t => t.id == i) = txs.length :=
      List.findIdx_eq_length_of_false (fun x hx => by simpa using h x hx)
    unfold txUpdate
    rw [dif_neg (by rw [hfi]; exact Nat.lt_irrefl _)]
  · intro pre t post htx hpre hti
    subst htx
    exact txUpdate_append pre t post i u hpre hti

/-- Witness for C9: updating the amount and category of the transaction with
id `"t2"` in a two-element store rewrites exactly that entry. -/
theorem txUpdate_frame_witness :
    ([Transaction.mk "t1" "Payment to Swiggy" (mkRat 250 1) "Food" "d1" none (some TxKind.debit),
      Transaction.mk "t2" "Transfer" (mkRat 500 1) "Others" "d2" none none] =
      [Transaction.mk "t1" "Payment to Swiggy" (mkRat 250 1) "Food" "d1" none (some TxKind.debit)] ++
        Transaction.mk "t2" "Transfer" (mkRat 500 1) "Others" "d2" none none :: []) ∧
    (∀ t2 ∈ [Transaction.mk "t1" "Payment to Swiggy" (mkRat 250 1) "Food" "d1" none (some TxKind.debit)],
      t2.id ≠ "t2") ∧
    txUpdate
      [Transaction.mk "t1" "Payment to Swiggy" (mkRat 250 1) "Food" "d1" none (some TxKind.debit),
       Transaction.mk "t2" "Transfer" (mkRat 500 1) "Others" "d2" none none]
      "t2" (TransactionUpdate.mk none none (some (mkRat 750 1)) (some "Bills") none none none) =
      [Transaction.mk "t1" "Payment to Swiggy" (mkRat 250 1) "Food" "d1" none (some TxKind.debit)] ++
        mergeTx (Transaction.mk "t2" "Transfer" (mkRat 500 1) "Others" "d2" none none)
          (TransactionUpdate.mk none none (some (mkRat 750 1)) (some "Bills") none none none) :: [] :=
  ⟨by decide, by decide,
   (txUpdate_frame
     [Transaction.mk "t1" "Payment to Swiggy" (mkRat 250 1) "Food" "d1" none (some TxKind.debit),
      Transaction.mk "t2" "Transfer" (mkRat 500 1) "Others" "d2" none none]
     "t2" (TransactionUpdate.mk none none (some (mkRat 750 1)) (some "Bills") none none none)).2
     [Transaction.mk "t1" "Payment to Swiggy" (mkRat 250 1) "Food" "d1" none (some TxKind.debit)]
     (Transaction.mk "t2" "Transfer" (mkRat 500 1) "Others" "d2" none none) []
     (by decide) (by decide) (by decide)⟩

/-! ## Android notification filter (translated from
`NotificationService.kt` in `src/TransactionNotifier/README.md`) -/

/-- `transactionKeywords` from `NotificationService`. -/
def transactionKeywords : List String :=
  ["paid", "received", "sent", "transfer", "upi", "transaction",
   "debited", "credited", "payment", "purchase", "order",
   "rs.", "₹", "inr", "amount", "bank", "account"]

/-- The six whitelisted payment-app package names. -/
def paymentPackages : List String :=
  ["com.whatsapp", "com.phonepe.app", "com.google.android.apps.nbu.paisa.user",
   "in.org.npci.upiapp", "com.paytm", "com.amazon.in"]

/-- Kotlin `hay.contains(needle, ignoreCase = true)`. -/
def containsCI (hay needle : String) : Bool :=
  isSubstr (lowerL needle.data) (lowerL hay.data)

/-- The `isPaymentApp` check: the package name contains one of the payment
fragments (ignoring case) or is one of the whitelisted packages. -/
def isPaymentApp (pkg : String) : Bool :=
  containsCI pkg "payment" || containsCI pkg "bank" || containsCI pkg "upi" ||
    containsCI pkg "wallet" || containsCI pkg "pay" || paymentPackages.contains pkg

/-- The `hasTransactionKeywords` check: some keyword occurs in the text,
ignoring case. -/
def hasTransactionKeywords (text : String) : Bool :=
  transactionKeywords.any (fun k => containsCI text k)

/-- Is the first character a decimal digit? -/
def headDigit : List Char → Bool
  | [] => false
  | c :: _ => isDigitChar c

/-- Case-insensitive prefix test of a literal against a character list. -/
def isPrefixCI (p : String) (l : List Char) : Bool :=
  (lowerL p.data).isPrefixOf (lowerL l)

/-- Matching of the Kotlin regex `(₹|rs\.?|inr)\s*\d` (case-insensitive)
anchored at the start of `l`: a currency marker, optional whitespace, then a
digit (`\d+` needs only its first digit to witness a match). -/
def amountMatchAt (l : List Char) : Bool :=
  if isPrefixCI "₹" l then headDigit ((l.drop 1).dropWhile isWsChar)
  else if isPrefixCI "rs" l then
    match l.drop 2 with
    | [] => false
    | c :: r =>
      if c == '.' then headDigit (r.dropWhile isWsChar)
      else headDigit ((c :: r).dropWhile isWsChar)
  else if isPrefixCI "inr" l then headDigit ((l.drop 3).dropWhile isWsChar)
  else false

/-- Does `p` hold of some suffix (regex `containsMatchIn` scanning)? -/
def anyTail (p : List Char → Bool) : List Char → Bool
  | [] => p []
  | c :: cs => p (c :: cs) || anyTail p cs

/-- The `hasAmountPattern` check: `text.contains(Regex("(₹|rs\.?|inr)\s*\d+",
IGNORE_CASE))`. -/
def hasAmountPattern (text : String) : Bool :=
  anyTail amountMatchAt text.data

/-- `NotificationService.isTransactionNotification`. -/
def isTransactionNotification (packageName text : String) : Bool :=
  (isPaymentApp packageName && hasTransactionKeywords text) || hasAmountPattern text

/-! ## Specification-level readings of the filter's components -/

/-- `needle` occurs in `hay` ignoring case: some middle segment of `hay`
lower-cases to the lower-cased needle. -/
def ContainsCI (hay needle : String) : Prop :=
  ∃ pre mid suf, hay.data = pre ++ (mid ++ suf) ∧ lowerL mid = lowerL needle.data

/-- The text contains a currency marker (`₹`, `rs`, `rs.` or `inr`, ignoring
case) followed by optional whitespace and a digit. -/
def AmountOccurs (text : String) : Prop :=
  ∃ pre marker ws d rest, text.data = pre ++ (marker ++ (ws ++ d :: rest)) ∧
    (lowerL marker = "₹".data ∨ lowerL marker = "rs".data ∨
      lowerL marker = "rs.".data ∨ lowerL marker = "inr".data) ∧
    (∀ c ∈ ws, isWsChar c = true) ∧ isDigitChar d = true

theorem isSubstr_iff (n h : List Char) :
    isSubstr n h = true ↔ ∃ a b, h = a ++ (n ++ b) := by
  induction h with
  | nil =>
    rw [show isSubstr n [] = n.isEmpty from rfl]
    constructor
    · intro he
      have hn : n = [] := by simpa [List.isEmpty_iff] using he
      exact ⟨[], [], by simp [hn]⟩
    · rintro ⟨a, b, hab⟩
      have hn : n = [] := by
        cases a <;> cases n <;> simp_all
      simp [hn]
  | cons c cs ih =>
    rw [show isSubstr n (c :: cs) = (n.isPrefixOf (c :: cs) || isSubstr n cs) from rfl]
    rw [Bool.or_eq_true, ih]
    constructor
    · rintro (hp | ⟨a, b, hab⟩)
      · rw [List.isPrefixOf_iff_prefix] at hp
        obtain ⟨b, hb⟩ := hp
        exact ⟨[], b, by simp [← hb]⟩
      · exact ⟨c :: a, b, by simp [hab]⟩
    · rintro ⟨a, b, hab⟩
      cases a with
      | nil =>
        left
        rw [List.isPrefixOf_iff_prefix]
        exact ⟨b, by simpa using hab.symm⟩
      | cons a0 as =>
        right
        injection hab with h1 h2
        exact ⟨as, b, h2⟩

theorem anyTail_iff (p : List Char → Bool) (l : List Char) :
    anyTail p l = true ↔ ∃ a b, l = a ++ b ∧ p b = true := by
  induction l with
  | nil =>
    rw [show anyTail p [] = p [] from rfl]
    constructor
    · intro hp
      exact ⟨[], [], rfl, hp⟩
    · rintro ⟨a, b, hab, hb⟩
      have : b = [] := by cases a <;> simp_all
      rw [← this]
      exact hb
  | cons c cs ih =>
    rw [show anyTail p (c :: cs) = (p (c :: cs) || anyTail p cs) from rfl]
    rw [Bool.or_eq_true, ih]
    constructor
    · rintro (hp | ⟨a, b, hab, hb⟩)
      · exact ⟨[], c :: cs, rfl, hp⟩
      · exact ⟨c :: a, b, by simp [hab], hb⟩
    · rintro ⟨a, b, hab, hb⟩
      cases a with
      | nil =>
        left
        simp only [List.nil_append] at hab
        rw [hab]
        exact hb
      | cons a0 as =>
        right
        injection hab with h1 h2
        exact ⟨as, b, h2, hb⟩

theorem containsCI_iff (hay needle : String) :
    containsCI hay needle = true ↔ ContainsCI hay needle := by
  unfold containsCI ContainsCI
  rw [isSubstr_iff]
  constructor
  · rintro ⟨a, b, hab⟩
    unfold lowerL at hab
    rcases List.map_eq_append_iff.mp hab with ⟨l1, l2, hsplit, h1, h2⟩
    rcases List.map_eq_append_iff.mp h2 with ⟨m1, m2, hsplit2, h3, h4⟩
    exact ⟨l1, m1, m2, by rw [hsplit, hsplit2], h3⟩
  · rintro ⟨pre, mid, suf, h1, h2⟩
    refine ⟨lowerL pre, lowerL suf, ?_⟩
    rw [h1]
    unfold lowerL
    rw [List.map_append, List.map_append]
    unfold lowerL at h2
    rw [h2]

theorem digit_not_ws (c : Char) (h : isDigitChar c = true) : isWsChar c = false := by
  unfold isDigitChar at h
  unfold isWsChar
  rw [decide_eq_true_iff] at h
  rw [decide_eq_false_iff_not]
  omega

theorem digit_ne_dot (c : Char) (h : isDigitChar c = true) : (c == '.') = false := by
  unfold isDigitChar at h
  rw [decide_eq_true_iff] at h
  rw [beq_eq_false_iff_ne]
  intro he
  subst he
  exact absurd h (by decide)

theorem ws_ne_dot (c : Char) (h : isWsChar c = true) : (c == '.') = false := by
  unfold isWsChar at h
  rw [decide_eq_true_iff] at h
  rw [beq_eq_false_iff_ne]
  intro he
  subst he
  exact absurd h (by decide)

theorem dropWhile_ws_append (ws l : List Char) (h : ∀ c ∈ ws, isWsChar c = true) :
    (ws ++ l).dropWhile isWsChar = l.dropWhile isWsChar := by
  induction ws with
  | nil => rfl
  | cons w ws' ih =>
    rw [List.cons_append, List.dropWhile_cons, if_pos (h w (List.mem_cons_self w ws'))]
    exact ih (fun c hc => h c (List.mem_cons_of_mem w hc))

theorem dropWhile_ws_digit (ws : List Char) (d : Char) (rest : List Char)
    (hws : ∀ c ∈ ws, isWsChar c = true) (hd : isDigitChar d = true) :
    (ws ++ d :: rest).dropWhile isWsChar = d :: rest := by
  rw [dropWhile_ws_append ws (d :: rest) hws, List.dropWhile_cons,
    if_neg (by simp [digit_not_ws d hd])]

theorem toLowerChar_eq_nonalpha (c x : Char)
    (hx : ¬ (97 ≤ x.toNat ∧ x.toNat ≤ 122)) (h : toLowerChar c = x) : c = x := by
  unfold toLowerChar at h
  by_cases hc : 65 ≤ c.toNat ∧ c.toNat ≤ 90
  · rw [if_pos hc] at h
    exfalso
    apply hx
    rw [← h, char_toNat_ofNat _ (Or.inl (by omega))]
    omega
  · rwa [if_neg hc] at h

theorem lowerL_eq_nil (m : List Char) (h : lowerL m = []) : m = [] := by
  cases m with
  | nil => rfl
  | cons c t => simp [lowerL] at h

theorem lowerL_eq_cons (m : List Char) (x : Char) (L : List Char)
    (h : lowerL m = x :: L) :
    ∃ c0 t, m = c0 :: t ∧ toLowerChar c0 = x ∧ lowerL t = L := by
  cases m with
  | nil => simp [lowerL] at h
  | cons c0 t =>
    have h2 : toLowerChar c0 :: lowerL t = x :: L := h
    injection h2 with ha hb
    exact ⟨c0, t, rfl, ha, hb⟩

theorem lower_prefix_cons (x : Char) (xs : List Char) (b : List Char)
    (h : (x :: xs).isPrefixOf (lowerL b) = true) :
    ∃ c0 t, b = c0 :: t ∧ toLowerChar c0 = x ∧ xs.isPrefixOf (lowerL t) = true := by
  cases b with
  | nil => exact absurd h (by simp [lowerL, List.isPrefixOf])
  | cons c0 t =>
    have h2 : ((x == toLowerChar c0) && xs.isPrefixOf (lowerL t)) = true := h
    rw [Bool.and_eq_true] at h2
    exact ⟨c0, t, rfl, (beq_iff_eq.mp h2.1).symm, h2.2⟩

theorem isPrefixCI_1 (s : String) (x : Char) (hs : lowerL s.data = [x])
    (c0 : Char) (t : List Char) :
    isPrefixCI s (c0 :: t) = (x == toLowerChar c0) := by
  unfold isPrefixCI
  rw [hs]
  show ((x == toLowerChar c0) && List.isPrefixOf [] (lowerL t)) = (x == toLowerChar c0)
  simp [List.isPrefixOf]

theorem isPrefixCI_2 (s : String) (x y : Char) (hs : lowerL s.data = [x, y])
    (c0 c1 : Char) (t : List Char) :
    isPrefixCI s (c0 :: c1 :: t) =
      ((x == toLowerChar c0) && (y == toLowerChar c1)) := by
  unfold isPrefixCI
  rw [hs]
  show ((x == toLowerChar c0) &&
    ((y == toLowerChar c1) && List.isPrefixOf [] (lowerL t))) = _
  simp [List.isPrefixOf]

theorem isPrefixCI_3 (s : String) (x y z : Char) (hs : lowerL s.data = [x, y, z])
    (c0 c1 c2 : Char) (t : List Char) :
    isPrefixCI s (c0 :: c1 :: c2 :: t) =
      ((x == toLowerChar c0) && (y == toLowerChar c1) && (z == toLowerChar c2)) := by
  unfold isPrefixCI
  rw [hs]
  show ((x == toLowerChar c0) &&
    ((y == toLowerChar c1) &&
      ((z == toLowerChar c2) && List.isPrefixOf [] (lowerL t)))) = _
  simp [List.isPrefixOf, Bool.and_assoc]

theorem headDigit_dropWhile_decomp (t : List Char)
    (h : headDigit (t.dropWhile isWsChar) = true) :
    ∃ ws d rest, t = ws ++ d :: rest ∧ (∀ c ∈ ws, isWsChar c = true) ∧
      isDigitChar d = true := by
  rcases hdw : t.dropWhile isWsChar with _ | ⟨d, rest⟩
  · rw [hdw] at h
    exact absurd h (by simp [headDigit])
  · rw [hdw] at h
    refine ⟨t.takeWhile isWsChar, d, rest, ?_, ?_, by simpa [headDigit] using h⟩
    · rw [← hdw, List.takeWhile_append_dropWhile]
    · intro c hc
      exact List.mem_takeWhile_imp hc

theorem amountMatchAt_iff (b : List Char) :
    amountMatchAt b = true ↔
      ∃ marker ws d rest, b = marker ++ (ws ++ d :: rest) ∧
        (lowerL marker = "₹".data ∨ lowerL marker = "rs".data ∨
          lowerL marker = "rs.".data ∨ lowerL marker = "inr".data) ∧
        (∀ c ∈ ws, isWsChar c = true) ∧ isDigitChar d = true := by
  have hrupee : lowerL ("₹" : String).data = ['₹'] := by decide
  have hrs : lowerL ("rs" : String).data = ['r', 's'] := by decide
  have hinr : lowerL ("inr" : String).data = ['i', 'n', 'r'] := by decide
  constructor
  · intro h
    unfold amountMatchAt at h
    by_cases h1 : isPrefixCI "₹" b
    · rw [if_pos h1] at h
      unfold isPrefixCI at h1
      rw [hrupee] at h1
      obtain ⟨c0, t, hb, hc0, -⟩ := lower_prefix_cons '₹' [] b h1
      subst hb
      rw [show (c0 :: t).drop 1 = t from rfl] at h
      obtain ⟨ws, d, rest, ht, hws, hd⟩ := headDigit_dropWhile_decomp t h
      refine ⟨[c0], ws, d, rest, by simp [ht], Or.inl ?_, hws, hd⟩
      show [toLowerChar c0] = ("₹" : String).data
      rw [hc0]
    · rw [if_neg h1] at h
      by_cases h2 : isPrefixCI "rs" b
      · rw [if_pos h2] at h
        unfold isPrefixCI at h2
        rw [hrs] at h2
        obtain ⟨c0, t0, hb0, hc0, hpre1⟩ := lower_prefix_cons 'r' ['s'] b h2
        obtain ⟨c1, t, hb1, hc1, -⟩ := lower_prefix_cons 's' [] t0 hpre1
        subst hb1
        subst hb0
        rw [show (c0 :: c1 :: t).drop 2 = t from rfl] at h
        cases t with
        | nil => exact absurd h (by simp)
        | cons c2 r =>
          have h3 : (if (c2 == '.') = true then headDigit (r.dropWhile isWsChar)
              else headDigit ((c2 :: r).dropWhile isWsChar)) = true := h
          by_cases hdot : (c2 == '.') = true
          · rw [if_pos hdot] at h3
            have hc2 : c2 = '.' := beq_iff_eq.mp hdot
            obtain ⟨ws, d, rest, hr, hws, hd⟩ := headDigit_dropWhile_decomp r h3
            refine ⟨[c0, c1, c2], ws, d, rest, by simp [hr], Or.inr (Or.inr (Or.inl ?_)),
              hws, hd⟩
            show [toLowerChar c0, toLowerChar c1, toLowerChar c2] = ("rs." : String).data
            rw [hc0, hc1, hc2]
            decide
          · rw [if_neg hdot] at h3
            obtain ⟨ws, d, rest, hr, hws, hd⟩ := headDigit_dropWhile_decomp (c2 :: r) h3
            refine ⟨[c0, c1], ws, d, rest, by simp [← hr], Or.inr (Or.inl ?_), hws, hd⟩
            show [toLowerChar c0, toLowerChar c1] = ("rs" : String).data
            rw [hc0, hc1]
      · rw [if_neg h2] at h
        by_cases h3 : isPrefixCI "inr" b
        · rw [if_pos h3] at h
          unfold isPrefixCI at h3
          rw [hinr] at h3
          obtain ⟨c0, t0, hb0, hc0, hpre1⟩ := lower_prefix_cons 'i' ['n', 'r'] b h3
          obtain ⟨c1, t1, hb1, hc1, hpre2⟩ := lower_prefix_cons 'n' ['r'] t0 hpre1
          obtain ⟨c2, t, hb2, hc2, -⟩ := lower_prefix_cons 'r' [] t1 hpre2
          subst hb2
          subst hb1
          subst hb0
          rw [show (c0 :: c1 :: c2 :: t).drop 3 = t from rfl] at h
          obtain ⟨ws, d, rest, ht, hws, hd⟩ := headDigit_dropWhile_decomp t h
          refine ⟨[c0, c1, c2], ws, d, rest, by simp [ht],
            Or.inr (Or.inr (Or.inr ?_)), hws, hd⟩
          show [toLowerChar c0, toLowerChar c1, toLowerChar c2] = ("inr" : String).data
          rw [hc0, hc1, hc2]
        · rw [if_neg h3] at h
          exact absurd h (by simp)
  · rintro ⟨marker, ws, d, rest, hb, hmk, hws, hd⟩
    subst hb
    rcases hmk with hm | hm | hm | hm
    · -- marker lower-cases to "₹"
      obtain ⟨c0, t, hm0, hc0, ht⟩ := lowerL_eq_cons marker '₹' [] hm
      have ht0 : t = [] := lowerL_eq_nil t ht
      subst ht0
      subst hm0
      unfold amountMatchAt
      rw [show ([c0] ++ (ws ++ d :: rest)) = c0 :: (ws ++ d :: rest) from rfl]
      rw [isPrefixCI_1 "₹" '₹' hrupee c0 (ws ++ d :: rest), hc0]
      rw [if_pos (by decide)]
      rw [show (c0 :: (ws ++ d :: rest)).drop 1 = ws ++ d :: rest from rfl]
      rw [dropWhile_ws_digit ws d rest hws hd]
      simpa [headDigit] using hd
    · -- marker lower-cases to "rs"
      obtain ⟨c0, t0, hm0, hc0, ht0⟩ := lowerL_eq_cons marker 'r' ['s'] hm
      obtain ⟨c1, t, hm1, hc1, ht1⟩ := lowerL_eq_cons t0 's' [] ht0
      have ht2 : t = [] := lowerL_eq_nil t ht1
      subst ht2
      subst hm1
      subst hm0
      unfold amountMatchAt
      rw [show ([c0, c1] ++ (ws ++ d :: rest)) = c0 :: c1 :: (ws ++ d :: rest) from rfl]
      rw [isPrefixCI_1 "₹" '₹' hrupee c0 (c1 :: (ws ++ d :: rest)), hc0]
      rw [if_neg (by decide)]
      rw [isPrefixCI_2 "rs" 'r' 's' hrs c0 c1 (ws ++ d :: rest), hc0, hc1]
      rw [if_pos (by decide)]
      rw [show (c0 :: c1 :: (ws ++ d :: rest)).drop 2 = ws ++ d :: rest from rfl]
      cases ws with
      | nil =>
        show (if (d == '.') = true then headDigit (rest.dropWhile isWsChar)
          else headDigit ((d :: rest).dropWhile isWsChar)) = true
        rw [if_neg (by simp [digit_ne_dot d hd])]
        rw [List.dropWhile_cons, if_neg (by simp [digit_not_ws d hd])]
        simpa [headDigit] using hd
      | cons w ws' =>
        show (if (w == '.') = true then headDigit ((ws' ++ d :: rest).dropWhile isWsChar)
          else headDigit ((w :: (ws' ++ d :: rest)).dropWhile isWsChar)) = true
        have hw : isWsChar w = true := hws w (List.mem_cons_self w ws')
        rw [if_neg (by simp [ws_ne_dot w hw])]
        rw [show w :: (ws' ++ d :: rest) = (w :: ws') ++ d :: rest from rfl]
        rw [dropWhile_ws_digit (w :: ws') d rest hws hd]
        simpa [headDigit] using hd
    · -- marker lower-cases to "rs."
      obtain ⟨c0, t0, hm0, hc0, ht0⟩ := lowerL_eq_cons marker 'r' ['s', '.'] hm
      obtain ⟨c1, t1, hm1, hc1, ht1⟩ := lowerL_eq_cons t0 's' ['.'] ht0
      obtain ⟨c2, t, hm2, hc2, ht2⟩ := lowerL_eq_cons t1 '.' [] ht1
      have ht3 : t = [] := lowerL_eq_nil t ht2
      subst ht3
      subst hm2
      subst hm1
      subst hm0
      have hc2e : c2 = '.' := toLowerChar_eq_nonalpha c2 '.' (by decide) hc2
      subst hc2e
      unfold amountMatchAt
      rw [show ([c0, c1, '.'] ++ (ws ++ d :: rest)) =
        c0 :: c1 :: '.' :: (ws ++ d :: rest) from rfl]
      rw [isPrefixCI_1 "₹" '₹' hrupee c0 (c1 :: '.' :: (ws ++ d :: rest)), hc0]
      rw [if_neg (by decide)]
      rw [isPrefixCI_2 "rs" 'r' 's' hrs c0 c1 ('.' :: (ws ++ d :: rest)), hc0, hc1]
      rw [if_pos (by decide)]
      rw [show (c0 :: c1 :: '.' :: (ws ++ d :: rest)).drop 2 =
        '.' :: (ws ++ d :: rest) from rfl]
      show (if (('.' : Char) == '.') = true then
        headDigit ((ws ++ d :: rest).dropWhile isWsChar)
        else headDigit (('.' :: (ws ++ d :: rest)).dropWhile isWsChar)) = true
      rw [if_pos (by decide)]
      rw [dropWhile_ws_digit ws d rest hws hd]
      simpa [headDigit] using hd
    · -- marker lower-cases to "inr"
      obtain ⟨c0, t0, hm0, hc0, ht0⟩ := lowerL_eq_cons marker 'i' ['n', 'r'] hm
      obtain ⟨c1, t1, hm1, hc1, ht1⟩ := lowerL_eq_cons t0 'n' ['r'] ht0
      obtain ⟨c2, t, hm2, hc2, ht2⟩ := lowerL_eq_cons t1 'r' [] ht1
      have ht3 : t = [] := lowerL_eq_nil t ht2
      subst ht3
      subst hm2
      subst hm1
      subst hm0
      unfold amountMatchAt
      rw [show ([c0, c1, c2] ++ (ws ++ d :: rest)) =
        c0 :: c1 :: c2 :: (ws ++ d :: rest) from rfl]
      rw [isPrefixCI_1 "₹" '₹' hrupee c0 (c1 :: c2 :: (ws ++ d :: rest)), hc0]
      rw [if_neg (by decide)]
      rw [isPrefixCI_2 "rs" 'r' 's' hrs c0 c1 (c2 :: (ws ++ d :: rest)), hc0, hc1]
      rw [if_neg (by decide)]
      rw [isPrefixCI_3 "inr" 'i' 'n' 'r' hinr c0 c1 c2 (ws ++ d :: rest), hc0, hc1, hc2]
      rw [if_pos (by decide)]
      rw [show (c0 :: c1 :: c2 :: (ws ++ d :: rest)).drop 3 = ws ++ d :: rest from rfl]
      rw [dropWhile_ws_digit ws d rest hws hd]
      simpa [headDigit] using hd

theorem hasAmountPattern_iff (text : String) :
    hasAmountPattern text = true ↔ AmountOccurs text := by
  unfold hasAmountPattern AmountOccurs
  rw [anyTail_iff]
  constructor
  · rintro ⟨a, b, hab, hm⟩
    obtain ⟨marker, ws, d, rest, hb, hmk, hws, hd⟩ := (amountMatchAt_iff b).mp hm
    exact ⟨a, marker, ws, d, rest, by rw [hab, hb], hmk, hws, hd⟩
  · rintro ⟨pre, marker, ws, d, rest, he, hmk, hws, hd⟩
    refine ⟨pre, marker ++ (ws ++ d :: rest), he, ?_⟩
    exact (amountMatchAt_iff _).mpr ⟨marker, ws, d, rest, rfl, hmk, hws, hd⟩

/-! ## Claim C10: the notification filter -/

/-- C10: `isTransactionNotification(packageName, text)` returns `true` exactly
when either the package passes the payment-app check (it contains
`payment`/`bank`/`upi`/`wallet`/`pay` ignoring case, or is one of the six
whitelisted packages) and the text contains a transaction keyword ignoring
case, or the text contains the currency-amount pattern (`₹`, `rs`, `rs.` or
`inr` followed by optional whitespace and digits, ignoring case); in
particular, any text containing the amount pattern is flagged regardless of
the posting app. -/
theorem notification_filter (packageName text : String) :
    (isTransactionNotification packageName text = true ↔
      (((ContainsCI packageName "payment" ∨ ContainsCI packageName "bank" ∨
          ContainsCI packageName "upi" ∨ ContainsCI packageName "wallet" ∨
          ContainsCI packageName "pay") ∨ packageName ∈ paymentPackages) ∧
        (∃ k ∈ transactionKeywords, ContainsCI text k)) ∨
      AmountOccurs text) ∧
    (AmountOccurs text → isTransactionNotification packageName text = true) := by
  have hmain : isTransactionNotification packageName text = true ↔
      (((ContainsCI packageName "payment" ∨ ContainsCI packageName "bank" ∨
          ContainsCI packageName "upi" ∨ ContainsCI packageName "wallet" ∨
          ContainsCI packageName "pay") ∨ packageName ∈ paymentPackages) ∧
        (∃ k ∈ transactionKeywords, ContainsCI text k)) ∨
      AmountOccurs text := by
    unfold isTransactionNotification isPaymentApp hasTransactionKeywords
    rw [Bool.or_eq_true, Bool.and_eq_true]
    rw [hasAmountPattern_iff]
    constructor
    · rintro (⟨happ, hkw⟩ | ham)
      · left
        constructor
        · simp only [Bool.or_eq_true] at happ
          rcases happ with ((((hp | hp) | hp) | hp) | hp) | hp
          · exact Or.inl (Or.inl ((containsCI_iff _ _).mp hp))
          · exact Or.inl (Or.inr (Or.inl ((containsCI_iff _ _).mp hp)))
          · exact Or.inl (Or.inr (Or.inr (Or.inl ((containsCI_iff _ _).mp hp))))
          · exact Or.inl (Or.inr (Or.inr (Or.inr (Or.inl ((containsCI_iff _ _).mp hp)))))
          · exact Or.inl (Or.inr (Or.inr (Or.inr (Or.inr ((containsCI_iff _ _).mp hp)))))
          · exact Or.inr (by simpa using hp)
        · rw [List.any_eq_true] at hkw
          obtain ⟨k, hk, hck⟩ := hkw
          exact ⟨k, hk, (containsCI_iff _ _).mp hck⟩
      · exact Or.inr ham
    · rintro (⟨happ, hkw⟩ | ham)
      · left
        constructor
        · simp only [Bool.or_eq_true]
          rcases happ with (hp | hp | hp | hp | hp) | hp
          · exact Or.inl (Or.inl (Or.inl (Or.inl (Or.inl ((containsCI_iff _ _).mpr hp)))))
          · exact Or.inl (Or.inl (Or.inl (Or.inl (Or.inr ((containsCI_iff _ _).mpr hp)))))
          · exact Or.inl (Or.inl (Or.inl (Or.inr ((containsCI_iff _ _).mpr hp))))
          · exact Or.inl (Or.inl (Or.inr ((containsCI_iff _ _).mpr hp)))
          · exact Or.inl (Or.inr ((containsCI_iff _ _).mpr hp))
          · exact Or.inr (by simpa using hp)
        · rw [List.any_eq_true]
          obtain ⟨k, hk, hck⟩ := hkw
          exact ⟨k, hk, (containsCI_iff _ _).mpr hck⟩
      · exact Or.inr ham
  exact ⟨hmain, fun ham => hmain.mpr (Or.inr ham)⟩

/-- Witness for C10: a text carrying `"₹ 42"` is flagged as a transaction even
when posted by a non-payment app. -/
theorem notification_filter_witness :
    AmountOccurs "got ₹ 42 cashback" ∧
    isTransactionNotification "com.example.game" "got ₹ 42 cashback" = true :=
  ⟨⟨"got ".data, "₹".data, [' '], '4', "2 cashback".data, by decide, by decide,
     by decide, by decide⟩,
   (notification_filter "com.example.game" "got ₹ 42 cashback").2
     ⟨"got ".data, "₹".data, [' '], '4', "2 cashback".data, by decide, by decide,
      by decide, by decide⟩⟩

end TransactAI
